import Mathlib

/-!
Shallow embedding of the checkpointable account cache (`AccountCache`,
extending the generic `Cache` base class) of the state manager.

The `js-sdsl` `OrderedMap` and the LRU map are embedded as association
lists with unique keys; every operation used by the code (get / set /
erase by key) is key-based, and no stated property depends on the
iteration order of a layer (keys within a layer are unique), so the
insertion-ordered association list stands in for the key-sorted
`OrderedMap`.  LRU recency bookkeeping and eviction are not exercised by
the embedded operations.  A JS runtime crash (a method call on
`undefined`) is embedded as `Option.none`; `!` assertions in the source
are type-level only and erase at runtime, so they introduce no check.
Accounts are represented by their serialized bytes (`serialize` is the
identity on the embedded representation).
-/

namespace AccountCache

/-- Cached account payload; `accountRLP = none` records that the account
is known to not exist in the trie (a cached negative), as opposed to the
key being absent from the backend map altogether. -/
structure AccountCacheElement where
  accountRLP : Option (List Nat)
deriving DecidableEq

/-- Lookup in an association-list map (embeds `OrderedMap.getElementByKey`
and `LRUCache.get`): the bound value, or `none` when the key is absent. -/
def omGet (m : List (String × α)) (k : String) : Option α :=
  match m with
  | [] => none
  | (k₁, v) :: rest => if k₁ = k then some v else omGet rest k

/-- Insert-or-replace in an association-list map (embeds
`OrderedMap.setElement` and `LRUCache.set`). -/
def omSet (m : List (String × α)) (k : String) (v : α) : List (String × α) :=
  match m with
  | [] => [(k, v)]
  | (k₁, v₁) :: rest => if k₁ = k then (k, v) :: rest else (k₁, v₁) :: omSet rest k v

/-- Removal by key (embeds `OrderedMap.eraseElementByKey` and
`LRUCache.delete`). -/
def omErase (m : List (String × α)) (k : String) : List (String × α) :=
  match m with
  | [] => []
  | (k₁, v₁) :: rest => if k₁ = k then omErase rest k else (k₁, v₁) :: omErase rest k

/-- One diff layer: a map from key to the value the backend held
immediately before the first mutation of that key after the layer was
opened (`none` when the key was absent from the backend). -/
abbrev DiffLayer := List (String × Option AccountCacheElement)

/-- Read/write/hit/delete statistics of the engine (`Cache._stats`). -/
structure CacheStats where
  reads : Nat
  hits : Nat
  writes : Nat
  dels : Nat
deriving DecidableEq

/-- The engine state: the backend map (`_lruCache` or `_orderedMapCache`;
both are plain key-value maps for every operation exercised here), the
stack of diff layers (`_diffCache`, index 0 the base layer), the
checkpoint counter `_checkpoints` (an integer: the code decrements it
with no lower bound), and the statistics counters. -/
structure CacheState where
  cache : List (String × AccountCacheElement)
  diffCache : List DiffLayer
  checkpoints : Int
  stats : CacheStats
deriving DecidableEq

/-- JS array read `l[i]`: the element, or `undefined` (`none`) when `i`
is out of range. -/
def jsIndex (l : List α) (i : Int) : Option α :=
  if 0 ≤ i then l.get? i.toNat else none

/-- JS array write `l[i] = a` for an index already in range (the only
form the source uses on `_diffCache`). -/
def jsSetIndex (l : List α) (i : Int) (a : α) : List α :=
  if 0 ≤ i then l.set i.toNat a else l

/-- Embeds `AccountCache._saveCachePreState`: when the layer at
`_diffCache[_checkpoints]` has no entry for the key (the `find` iterator
equals `end()`), record the key's current backend value — or its absence,
as an entry with value `none` — into that layer; `none` embeds the crash
when `_diffCache[_checkpoints]` is `undefined`. -/
def _saveCachePreState (s : CacheState) (cacheKeyHex : String) : Option CacheState :=
  match jsIndex s.diffCache s.checkpoints with
  | none => none
  | some layer =>
    if (omGet layer cacheKeyHex).isSome then
      some s
    else
      some { s with diffCache := (jsSetIndex s.diffCache s.checkpoints
        (omSet layer cacheKeyHex (omGet s.cache cacheKeyHex))) }

/-- Embeds `AccountCache.put`: record the pre-state, then store the
element (`accountRLP = none` when the account argument is `undefined`)
in the backend and count a write. -/
def put (s : CacheState) (addressHex : String) (account : Option (List Nat)) :
    Option CacheState :=
  match _saveCachePreState s addressHex with
  | none => none
  | some s₁ =>
    some { s₁ with
      cache := omSet s₁.cache addressHex ⟨account⟩,
      stats := { s₁.stats with writes := s₁.stats.writes + 1 } }

/-- Embeds `AccountCache.get`: backend lookup; counts a read, and a hit
when an element was found (any element object is truthy in JS, also one
with `accountRLP` equal to `undefined`). -/
def get (s : CacheState) (addressHex : String) :
    Option AccountCacheElement × CacheState :=
  let elem := omGet s.cache addressHex
  let stats₁ := { s.stats with reads := s.stats.reads + 1 }
  let stats₂ := if elem.isSome then { stats₁ with hits := stats₁.hits + 1 } else stats₁
  (elem, { s with stats := stats₂ })

/-- Embeds `AccountCache.del`: record the pre-state, then store an
explicit `accountRLP = none` element for the key (the key stays present
in the backend) and count a delete. -/
def del (s : CacheState) (addressHex : String) : Option CacheState :=
  match _saveCachePreState s addressHex with
  | none => none
  | some s₁ =>
    some { s₁ with
      cache := omSet s₁.cache addressHex ⟨none⟩,
      stats := { s₁.stats with dels := s₁.stats.dels + 1 } }

/-- Embeds `AccountCache.flush`: pair every key of
`_diffCache[_checkpoints]`, in layer order, that is still present in the
backend with its current backend value, then replace that layer with an
empty one; `none` embeds the crash when that layer is `undefined`. -/
def flush (s : CacheState) :
    Option (List (String × AccountCacheElement) × CacheState) :=
  match jsIndex s.diffCache s.checkpoints with
  | none => none
  | some diffMap =>
    let items := diffMap.filterMap (fun kv =>
      match omGet s.cache kv.1 with
      | some elem => some (kv.1, elem)
      | none => none)
    some (items, { s with diffCache := jsSetIndex s.diffCache s.checkpoints [] })

/-- Applying a popped diff layer back onto the backend, entry by entry in
layer order: an entry recording absence erases the key, any other entry
restores the recorded element. -/
def revertApply : List (String × AccountCacheElement) → DiffLayer →
    List (String × AccountCacheElement)
  | c, [] => c
  | c, (k, none) :: rest => revertApply (omErase c k) rest
  | c, (k, some elem) :: rest => revertApply (omSet c k elem) rest

/-- Embeds `AccountCache.revert`: decrement `_checkpoints`, pop the top
diff layer and apply every recorded pre-image back onto the backend;
`none` embeds the crash when the stack was empty (`pop` yields
`undefined`). -/
def revert (s : CacheState) : Option CacheState :=
  match s.diffCache.getLast? with
  | none => none
  | some diffMap =>
    some { s with
      checkpoints := s.checkpoints - 1,
      diffCache := s.diffCache.dropLast,
      cache := revertApply s.cache diffMap }

/-- The merge loop of `AccountCache.commit`: for each popped entry in
layer order, read the parent layer `_diffCache[_checkpoints]` (after the
decrement); when `getElementByKey` yields `undefined` — either no entry,
or an entry whose recorded pre-image is itself `undefined` — store the
popped entry there.  `none` embeds the crash when the parent layer is
`undefined`. -/
def commitLoop (cps : Int) (dc : List DiffLayer) :
    List (String × Option AccountCacheElement) → Option (List DiffLayer)
  | [] => some dc
  | kv :: rest =>
    match jsIndex dc cps with
    | none => none
    | some parent =>
      if (omGet parent kv.1).join.isNone then
        commitLoop cps (jsSetIndex dc cps (omSet parent kv.1 kv.2)) rest
      else
        commitLoop cps dc rest

/-- Embeds `AccountCache.commit`: decrement `_checkpoints`, pop the top
diff layer and merge its entries into the parent layer wherever
`getElementByKey` saw `undefined` there; `none` embeds a crash. -/
def commit (s : CacheState) : Option CacheState :=
  match s.diffCache.getLast? with
  | none => none
  | some diffMap =>
    match commitLoop (s.checkpoints - 1) s.diffCache.dropLast diffMap with
    | none => none
    | some dc =>
      some { s with checkpoints := s.checkpoints - 1, diffCache := dc }

/-- Modelled from the spec: `checkpoint()` of the missing base class
`Cache` — "pushes a new empty DiffLayer onto the stack. No return value;
always succeeds" — together with the `_checkpoints` increment the
subclass relies on (`_diffCache[_checkpoints]` must address the new
layer). -/
def checkpoint (s : CacheState) : CacheState :=
  { s with checkpoints := s.checkpoints + 1, diffCache := s.diffCache ++ [[]] }

/-- Modelled from the spec: the missing base-class constructor.  Depth 0,
zeroed statistics, empty backend, and one empty base diff layer at index
0 — the layer the spec's `flush` reads when no checkpoint is open ("the
single implicit base layer accumulated since the last flush") and that
`_saveCachePreState` and `flush` address as `_diffCache[0]` at depth 0. -/
def initialState : CacheState :=
  { cache := [], diffCache := [[]], checkpoints := 0, stats := ⟨0, 0, 0, 0⟩ }

/-- The shape the engine keeps itself in: a nonnegative depth and one
diff layer per open checkpoint above the base layer. -/
def WF (s : CacheState) : Prop :=
  0 ≤ s.checkpoints ∧ s.diffCache.length = s.checkpoints.toNat + 1

instance (s : CacheState) : Decidable (WF s) :=
  inferInstanceAs (Decidable (0 ≤ s.checkpoints ∧ s.diffCache.length = s.checkpoints.toNat + 1))

/-- The layer mutations are recorded into: `_diffCache[_checkpoints]`. -/
def topLayer (s : CacheState) : Option DiffLayer :=
  jsIndex s.diffCache s.checkpoints

/-- A mutation operation, the kind claims about checkpoint scopes range
over. -/
inductive CacheOp where
  | put (k : String) (v : Option (List Nat))
  | del (k : String)
deriving DecidableEq

/-- Run one mutation. -/
def applyOp (s : CacheState) : CacheOp → Option CacheState
  | .put k v => put s k v
  | .del k => del s k

/-- Run a sequence of mutations, stopping at a crash. -/
def applyOps (s : CacheState) : List CacheOp → Option CacheState
  | [] => some s
  | op :: ops =>
    match applyOp s op with
    | none => none
    | some s₁ => applyOps s₁ ops

/-- The full operation surface of the engine. -/
inductive EngineOp where
  | put (k : String) (v : Option (List Nat))
  | del (k : String)
  | get (k : String)
  | checkpoint
  | commit
  | revert
  | flush
deriving DecidableEq

/-- Run one engine operation (discarding read results). -/
def runOp (s : CacheState) : EngineOp → Option CacheState
  | .put k v => put s k v
  | .del k => del s k
  | .get k => some (get s k).2
  | .checkpoint => some (checkpoint s)
  | .commit => commit s
  | .revert => revert s
  | .flush => (flush s).map Prod.snd

/-- Run a sequence of engine operations, stopping at a crash. -/
def run (s : CacheState) : List EngineOp → Option CacheState
  | [] => some s
  | op :: ops =>
    match runOp s op with
    | none => none
    | some s₁ => run s₁ ops

/-! Association-list map lemmas. -/

theorem omGet_omSet_self (m : List (String × α)) (k : String) (v : α) :
    omGet (omSet m k v) k = some v := by
  induction m with
  | nil => simp [omSet, omGet]
  | cons hd tl ih =>
    obtain ⟨k₁, v₁⟩ := hd
    by_cases h : k₁ = k
    · simp [omSet, omGet, h]
    · simp [omSet, omGet, h, ih]

theorem omGet_omSet_ne (m : List (String × α)) (k k₁ : String) (v : α)
    (h : k ≠ k₁) : omGet (omSet m k v) k₁ = omGet m k₁ := by
  induction m with
  | nil => simp [omSet, omGet, h]
  | cons hd tl ih =>
    obtain ⟨k₂, v₂⟩ := hd
    by_cases h₂ : k₂ = k
    · subst h₂; simp [omSet, omGet, h]
    · simp [omSet, omGet, h₂, ih]

theorem omGet_omErase_self (m : List (String × α)) (k : String) :
    omGet (omErase m k) k = none := by
  induction m with
  | nil => simp [omErase, omGet]
  | cons hd tl ih =>
    obtain ⟨k₁, v₁⟩ := hd
    by_cases h : k₁ = k
    · simp [omErase, h, ih]
    · simp [omErase, omGet, h, ih]

theorem omGet_omErase_ne (m : List (String × α)) (k k₁ : String)
    (h : k ≠ k₁) : omGet (omErase m k) k₁ = omGet m k₁ := by
  induction m with
  | nil => simp [omErase]
  | cons hd tl ih =>
    obtain ⟨k₂, v₂⟩ := hd
    by_cases h₂ : k₂ = k
    · subst h₂; simp [omErase, omGet, h, ih]
    · simp [omErase, omGet, h₂, ih]

/-- Keys are unique, as in a map: each key binds at most one entry. -/
def NodupKeys : List (String × α) → Prop
  | [] => True
  | (k, _) :: rest => omGet rest k = none ∧ NodupKeys rest

instance decidableNodupKeys [DecidableEq α] :
    (m : List (String × α)) → Decidable (NodupKeys m)
  | [] => isTrue trivial
  | (k, _) :: rest =>
    haveI := decidableNodupKeys (α := α) rest
    inferInstanceAs (Decidable (omGet rest k = none ∧ NodupKeys rest))

theorem nodupKeys_omSet (m : List (String × α)) (k : String) (v : α)
    (h : NodupKeys m) : NodupKeys (omSet m k v) := by
  induction m with
  | nil => exact ⟨rfl, trivial⟩
  | cons hd tl ih =>
    obtain ⟨k₁, v₁⟩ := hd
    obtain ⟨h1, h2⟩ := h
    by_cases hk : k₁ = k
    · subst hk
      simp only [omSet, if_pos rfl]
      exact ⟨h1, h2⟩
    · simp only [omSet, if_neg hk]
      exact ⟨by rw [omGet_omSet_ne tl k k₁ v (fun hh => hk hh.symm)]; exact h1, ih h2⟩

theorem mem_iff_omGet (m : List (String × α)) (k : String) (v : α)
    (hnd : NodupKeys m) : (k, v) ∈ m ↔ omGet m k = some v := by
  induction m with
  | nil => simp [omGet]
  | cons hd rest ih =>
    obtain ⟨k₁, v₁⟩ := hd
    obtain ⟨h1, h2⟩ := hnd
    by_cases hk : k₁ = k
    · subst hk
      have hred : omGet ((k₁, v₁) :: rest) k₁ = some v₁ := by simp [omGet]
      rw [List.mem_cons, hred]
      constructor
      · rintro (he | hm)
        · injection he with hKey hVal
          rw [hVal]
        · have hv := (ih h2).mp hm
          rw [h1] at hv
          exact absurd hv (by simp)
      · intro he
        injection he with he
        exact Or.inl (by rw [he])
    · have hred : omGet ((k₁, v₁) :: rest) k = omGet rest k := by simp [omGet, hk]
      rw [List.mem_cons, hred, ← ih h2]
      constructor
      · rintro (he | hm)
        · injection he with hKey hVal
          exact absurd hKey (fun hh => hk hh.symm)
        · exact hm
      · exact Or.inr

/-! JS array index lemmas. -/

theorem get?_set_self (l : List α) (n : Nat) (a : α) (h : n < l.length) :
    (l.set n a).get? n = some a := by
  induction l generalizing n with
  | nil => simp at h
  | cons x xs ih =>
    cases n with
    | zero => rfl
    | succ n => simpa [List.set] using ih n (by simpa using h)

theorem get?_set_ne (l : List α) (m n : Nat) (a : α) (h : m ≠ n) :
    (l.set m a).get? n = l.get? n := by
  induction l generalizing m n with
  | nil => simp
  | cons x xs ih =>
    cases m with
    | zero =>
      cases n with
      | zero => exact absurd rfl h
      | succ n => rfl
    | succ m =>
      cases n with
      | zero => rfl
      | succ n => simpa [List.set] using ih m n (by omega)

theorem set_concat (xs : List α) (a b : α) :
    (xs ++ [a]).set xs.length b = xs ++ [b] := by
  induction xs with
  | nil => rfl
  | cons x xs ih => simpa [List.set] using ih

theorem lt_length_of_get?_eq_some (l : List α) (n : Nat) (a : α)
    (h : l.get? n = some a) : n < l.length := by
  induction l generalizing n with
  | nil => simp at h
  | cons x xs ih =>
    cases n with
    | zero => simp
    | succ n => simpa using ih n (by simpa using h)

theorem jsIndex_concat (xs : List α) (a : α) (i : Int) (h0 : 0 ≤ i)
    (h : i.toNat = xs.length) : jsIndex (xs ++ [a]) i = some a := by
  rw [jsIndex, if_pos h0, h, List.get?_concat_length]

theorem jsSetIndex_concat (xs : List α) (a b : α) (i : Int) (h0 : 0 ≤ i)
    (h : i.toNat = xs.length) : jsSetIndex (xs ++ [a]) i b = xs ++ [b] := by
  rw [jsSetIndex, if_pos h0, h, set_concat]

theorem jsIndex_jsSetIndex_self (l : List α) (i : Int) (a b : α)
    (h : jsIndex l i = some a) : jsIndex (jsSetIndex l i b) i = some b := by
  rw [jsIndex] at h
  by_cases h0 : 0 ≤ i
  · rw [if_pos h0] at h
    rw [jsSetIndex, if_pos h0, jsIndex, if_pos h0]
    exact get?_set_self l i.toNat b (lt_length_of_get?_eq_some l i.toNat a h)
  · rw [if_neg h0] at h
    exact absurd h (by simp)

theorem jsIndex_jsSetIndex_ne (l : List α) (i j : Int) (b : α) (h : i ≠ j) :
    jsIndex (jsSetIndex l i b) j = jsIndex l j := by
  rw [jsSetIndex, jsIndex, jsIndex]
  by_cases hj : 0 ≤ j
  · by_cases hi : 0 ≤ i
    · rw [if_pos hi, if_pos hj, if_pos hj]
      exact get?_set_ne l i.toNat j.toNat b (by omega)
    · rw [if_neg hi]
  · rw [if_neg hj, if_neg hj]

theorem length_jsSetIndex (l : List α) (i : Int) (a : α) :
    (jsSetIndex l i a).length = l.length := by
  rw [jsSetIndex]
  by_cases h : 0 ≤ i
  · rw [if_pos h, List.length_set]
  · rw [if_neg h]

/-! Lemmas about applying a popped diff layer to the backend. -/

theorem revertApply_notmem (L : DiffLayer) (c : List (String × AccountCacheElement))
    (k : String) (h : omGet L k = none) :
    omGet (revertApply c L) k = omGet c k := by
  induction L generalizing c with
  | nil => rfl
  | cons kv rest ih =>
    obtain ⟨k₁, p⟩ := kv
    by_cases hk : k₁ = k
    · simp [omGet, hk] at h
    · simp only [omGet, if_neg hk] at h
      cases p with
      | none => rw [revertApply, ih _ h, omGet_omErase_ne _ _ _ hk]
      | some e => rw [revertApply, ih _ h, omGet_omSet_ne _ _ _ _ hk]

theorem revertApply_mem (L : DiffLayer) (c : List (String × AccountCacheElement))
    (k : String) (pre : Option AccountCacheElement)
    (hnd : NodupKeys L) (h : omGet L k = some pre) :
    omGet (revertApply c L) k = pre := by
  induction L generalizing c with
  | nil => simp [omGet] at h
  | cons kv rest ih =>
    obtain ⟨k₁, p⟩ := kv
    obtain ⟨h1, h2⟩ := hnd
    by_cases hk : k₁ = k
    · subst hk
      have h' : p = pre := by
        have hred : omGet ((k₁, p) :: rest) k₁ = some p := by simp [omGet]
        rw [hred] at h
        injection h
      subst h'
      cases p with
      | none =>
        show omGet (revertApply (omErase c k₁) rest) k₁ = none
        rw [revertApply_notmem rest _ _ h1, omGet_omErase_self]
      | some e =>
        show omGet (revertApply (omSet c k₁ e) rest) k₁ = some e
        rw [revertApply_notmem rest _ _ h1, omGet_omSet_self]
    · simp only [omGet, if_neg hk] at h
      cases p with
      | none =>
        show omGet (revertApply (omErase c k₁) rest) k = pre
        exact ih _ h2 h
      | some e =>
        show omGet (revertApply (omSet c k₁ e) rest) k = pre
        exact ih _ h2 h

/-! The checkpoint-scope invariant: inside a scope opened at state s₀,
the state differs from s₀ by one extra top diff layer L; L records the
pre-checkpoint value of every key it mentions, and a key L does not
mention still holds its pre-checkpoint backend value. -/

def TracksL (s₀ : CacheState) (L : DiffLayer) (s : CacheState) : Prop :=
  s.checkpoints = s₀.checkpoints + 1 ∧
  s.diffCache = s₀.diffCache ++ [L] ∧ NodupKeys L ∧
  (∀ k, omGet L k = none → omGet s.cache k = omGet s₀.cache k) ∧
  (∀ k pre, omGet L k = some pre → pre = omGet s₀.cache k)

theorem TracksL_checkpoint (s₀ : CacheState) : TracksL s₀ [] (checkpoint s₀) := by
  refine ⟨rfl, rfl, trivial, fun k _ => rfl, fun k pre hpre => ?_⟩
  simp [omGet] at hpre

theorem topLayer_of_TracksL (s₀ : CacheState) (L : DiffLayer) (s : CacheState)
    (hWF : WF s₀) (ht : TracksL s₀ L s) : topLayer s = some L := by
  obtain ⟨h0, hlen⟩ := hWF
  obtain ⟨hcps, hdc, -, -, -⟩ := ht
  rw [topLayer, hcps, hdc]
  exact jsIndex_concat s₀.diffCache L (s₀.checkpoints + 1) (by omega) (by omega)

theorem save_TracksL (s₀ : CacheState) (L : DiffLayer) (s : CacheState) (k : String)
    (hWF : WF s₀) (ht : TracksL s₀ L s) :
    ∃ L₁ s₁, _saveCachePreState s k = some s₁ ∧ TracksL s₀ L₁ s₁ ∧
      (omGet L₁ k).isSome ∧ s₁.cache = s.cache ∧ s₁.stats = s.stats := by
  have hTop : jsIndex s.diffCache s.checkpoints = some L :=
    topLayer_of_TracksL s₀ L s hWF ht
  obtain ⟨h0, hlen⟩ := hWF
  obtain ⟨hcps, hdc, hnd, hnone, hsome⟩ := ht
  by_cases hmem : (omGet L k).isSome
  · refine ⟨L, s, ?_, ⟨hcps, hdc, hnd, hnone, hsome⟩, hmem, rfl, rfl⟩
    simp only [_saveCachePreState, hTop, if_pos hmem]
  · have hk : omGet L k = none := Option.not_isSome_iff_eq_none.mp hmem
    refine ⟨omSet L k (omGet s.cache k),
      { s with diffCache := (jsSetIndex s.diffCache s.checkpoints
        (omSet L k (omGet s.cache k))) }, ?_, ?_, ?_, rfl, rfl⟩
    · simp only [_saveCachePreState, hTop, if_neg hmem]
    · refine ⟨hcps, ?_, nodupKeys_omSet L k _ hnd, ?_, ?_⟩
      · show jsSetIndex s.diffCache s.checkpoints (omSet L k (omGet s.cache k))
            = s₀.diffCache ++ [omSet L k (omGet s.cache k)]
        rw [hcps, hdc]
        exact jsSetIndex_concat s₀.diffCache L _ (s₀.checkpoints + 1)
          (by omega) (by omega)
      · intro k₁ h₁
        by_cases hk₁ : k = k₁
        · subst hk₁
          rw [omGet_omSet_self] at h₁
          exact absurd h₁ (by simp)
        · rw [omGet_omSet_ne L k k₁ _ hk₁] at h₁
          exact hnone k₁ h₁
      · intro k₁ pre h₁
        by_cases hk₁ : k = k₁
        · subst hk₁
          rw [omGet_omSet_self] at h₁
          injection h₁ with h₁
          rw [← h₁]
          exact hnone k hk
        · rw [omGet_omSet_ne L k k₁ _ hk₁] at h₁
          exact hsome k₁ pre h₁
    · rw [omGet_omSet_self]
      rfl

theorem setCache_TracksL (s₀ : CacheState) (L : DiffLayer) (s : CacheState)
    (k : String) (e : AccountCacheElement) (st : CacheStats)
    (ht : TracksL s₀ L s) (hk : (omGet L k).isSome) :
    TracksL s₀ L { s with cache := omSet s.cache k e, stats := st } := by
  obtain ⟨hcps, hdc, hnd, hnone, hsome⟩ := ht
  refine ⟨hcps, hdc, hnd, ?_, hsome⟩
  intro k₁ h₁
  have hk₁ : k ≠ k₁ := by
    intro hh
    subst hh
    rw [h₁] at hk
    exact absurd hk (by simp)
  show omGet (omSet s.cache k e) k₁ = omGet s₀.cache k₁
  rw [omGet_omSet_ne s.cache k k₁ e hk₁]
  exact hnone k₁ h₁

theorem applyOp_TracksL (s₀ : CacheState) (L : DiffLayer) (s : CacheState)
    (op : CacheOp) (hWF : WF s₀) (ht : TracksL s₀ L s) :
    ∃ L' s', applyOp s op = some s' ∧ TracksL s₀ L' s' := by
  cases op with
  | put k v =>
    obtain ⟨L₁, s₁, hsave, ht₁, hmem, -, -⟩ := save_TracksL s₀ L s k hWF ht
    refine ⟨L₁, { s₁ with cache := omSet s₁.cache k ⟨v⟩, stats := { s₁.stats with writes := s₁.stats.writes + 1 } }, ?_, setCache_TracksL s₀ L₁ s₁ k ⟨v⟩ _ ht₁ hmem⟩
    simp only [applyOp, put, hsave]
  | del k =>
    obtain ⟨L₁, s₁, hsave, ht₁, hmem, -, -⟩ := save_TracksL s₀ L s k hWF ht
    refine ⟨L₁, { s₁ with cache := omSet s₁.cache k ⟨none⟩, stats := { s₁.stats with dels := s₁.stats.dels + 1 } }, ?_, setCache_TracksL s₀ L₁ s₁ k ⟨none⟩ _ ht₁ hmem⟩
    simp only [applyOp, del, hsave]

theorem applyOps_TracksL (s₀ : CacheState) (hWF : WF s₀) (ops : List CacheOp) :
    ∀ (L : DiffLayer) (s : CacheState), TracksL s₀ L s →
    ∃ L' s', applyOps s ops = some s' ∧ TracksL s₀ L' s' := by
  induction ops with
  | nil => exact fun L s ht => ⟨L, s, rfl, ht⟩
  | cons op ops ih =>
    intro L s ht
    obtain ⟨L₁, s₁, hop, ht₁⟩ := applyOp_TracksL s₀ L s op hWF ht
    obtain ⟨L', s', hops, ht'⟩ := ih L₁ s₁ ht₁
    exact ⟨L', s', by simp only [applyOps, hop, hops], ht'⟩

/-- Claim C1: for every well-formed engine state, opening a checkpoint,
performing any sequence of put/del mutations, and calling revert restores
every key's backend entry — touched or not — to exactly its value (or
absence) from immediately before the checkpoint, and restores the
checkpoint stack. -/
theorem checkpoint_revert_roundtrip (s₀ : CacheState) (ops : List CacheOp)
    (hWF : WF s₀) :
    ∃ s₂ s₃, applyOps (checkpoint s₀) ops = some s₂ ∧ revert s₂ = some s₃ ∧
      s₃.checkpoints = s₀.checkpoints ∧ s₃.diffCache = s₀.diffCache ∧
      ∀ k, omGet s₃.cache k = omGet s₀.cache k := by
  obtain ⟨L', s₂, hops, ht₂⟩ :=
    applyOps_TracksL s₀ hWF ops [] (checkpoint s₀) (TracksL_checkpoint s₀)
  obtain ⟨hcps, hdc, hnd, hnone, hsome⟩ := ht₂
  have hlast : s₂.diffCache.getLast? = some L' := by
    rw [hdc]
    exact List.getLast?_concat _
  refine ⟨s₂, { s₂ with checkpoints := s₂.checkpoints - 1, diffCache := s₂.diffCache.dropLast, cache := revertApply s₂.cache L' }, hops, ?_, ?_, ?_, ?_⟩
  · simp only [revert, hlast]
  · show s₂.checkpoints - 1 = s₀.checkpoints
    omega
  · show s₂.diffCache.dropLast = s₀.diffCache
    rw [hdc]
    exact List.dropLast_concat
  · intro k
    show omGet (revertApply s₂.cache L') k = omGet s₀.cache k
    cases hL : omGet L' k with
    | none => rw [revertApply_notmem L' _ _ hL]; exact hnone k hL
    | some pre => rw [revertApply_mem L' _ _ _ hnd hL]; exact hsome k pre hL

theorem jsIndex_nil (i : Int) : jsIndex ([] : List α) i = none := by
  rw [jsIndex]
  split <;> rfl

theorem save_preimage_stable (s : CacheState) (k₁ k : String) (L : DiffLayer)
    (pre : Option AccountCacheElement)
    (hL : topLayer s = some L) (hk : omGet L k = some pre) :
    ∃ s₁ L', _saveCachePreState s k₁ = some s₁ ∧ topLayer s₁ = some L' ∧
      omGet L' k = some pre := by
  rw [topLayer] at hL
  by_cases hmem : (omGet L k₁).isSome
  · exact ⟨s, L, by simp only [_saveCachePreState, hL, if_pos hmem],
      by rw [topLayer]; exact hL, hk⟩
  · have hne : k₁ ≠ k := by
      intro hh
      subst hh
      rw [hk] at hmem
      exact hmem rfl
    refine ⟨{ s with diffCache := (jsSetIndex s.diffCache s.checkpoints (omSet L k₁ (omGet s.cache k₁))) }, omSet L k₁ (omGet s.cache k₁), ?_, ?_, ?_⟩
    · simp only [_saveCachePreState, hL, if_neg hmem]
    · show jsIndex (jsSetIndex s.diffCache s.checkpoints
        (omSet L k₁ (omGet s.cache k₁))) s.checkpoints
          = some (omSet L k₁ (omGet s.cache k₁))
      exact jsIndex_jsSetIndex_self s.diffCache s.checkpoints L _ hL
    · rw [omGet_omSet_ne L k₁ k _ hne]
      exact hk

/-- Claim C4: a pre-image already recorded in the top diff layer is never
overwritten by a later put or del — in particular, on the second and
every later mutation of a key within the same checkpoint scope the
recorded pre-image stays exactly as captured by the first mutation, also
when it records that the key was absent; revert therefore restores the
pre-checkpoint value, never an intermediate one. -/
theorem first_mutation_preimage_stable (s : CacheState) (op : CacheOp)
    (s' : CacheState) (L : DiffLayer) (k : String)
    (pre : Option AccountCacheElement)
    (hL : topLayer s = some L) (hk : omGet L k = some pre)
    (h : applyOp s op = some s') :
    ∃ L', topLayer s' = some L' ∧ omGet L' k = some pre := by
  cases op with
  | put k₁ v =>
    obtain ⟨s₁, L', hsave, hTop, hk'⟩ := save_preimage_stable s k₁ k L pre hL hk
    simp only [applyOp, put, hsave] at h
    injection h with h
    subst h
    exact ⟨L', hTop, hk'⟩
  | del k₁ =>
    obtain ⟨s₁, L', hsave, hTop, hk'⟩ := save_preimage_stable s k₁ k L pre hL hk
    simp only [applyOp, del, hsave] at h
    injection h with h
    subst h
    exact ⟨L', hTop, hk'⟩

/-- Witness for C4: with one open checkpoint whose layer already records
pre-image bytes [1] for key "aa", a second put of "aa" leaves that
recorded pre-image unchanged. -/
theorem first_mutation_preimage_stable_witness :
    ∃ L', topLayer ⟨[("aa", ⟨some [3]⟩)], [[], [("aa", some ⟨some [1]⟩)]], 1, ⟨0, 0, 1, 0⟩⟩ = some L' ∧ omGet L' "aa" = some (some ⟨some [1]⟩) :=
  first_mutation_preimage_stable
    ⟨[("aa", ⟨some [2]⟩)], [[], [("aa", some ⟨some [1]⟩)]], 1, ⟨0, 0, 0, 0⟩⟩
    (CacheOp.put "aa" (some [3]))
    ⟨[("aa", ⟨some [3]⟩)], [[], [("aa", some ⟨some [1]⟩)]], 1, ⟨0, 0, 1, 0⟩⟩
    [("aa", some ⟨some [1]⟩)] "aa" (some ⟨some [1]⟩)
    (by decide) (by decide) (by decide)

/-- Claim C8 counterexample: at depth 0 (initial state) a put does record
a pre-image — the base diff layer changes from empty to one entry
recording the key's absence. -/
theorem depth0_put_changes_base_layer :
    (put initialState "aa" (some [1])).map (fun s => s.diffCache)
      = some [[("aa", (none : Option AccountCacheElement))]] ∧
    initialState.diffCache = [[]] := by decide

theorem save_at_base (s : CacheState) (k : String) (L : DiffLayer)
    (hTop : jsIndex s.diffCache s.checkpoints = some L)
    (hL : s.diffCache = [L]) (h0 : s.checkpoints = 0) :
    _saveCachePreState s k = some { s with diffCache := [if (omGet L k).isSome then L else omSet L k (omGet s.cache k)] } := by
  by_cases hmem : (omGet L k).isSome
  · simp only [_saveCachePreState, hTop, if_pos hmem]
    rw [← hL]
  · simp only [_saveCachePreState, hTop, if_neg hmem]
    rw [hL, h0]
    rfl

/-- Claim C8 amended: at depth 0 a put or del records the key's
pre-image in the single base diff layer (the flush change-tracking
layer) exactly as it would inside a checkpoint scope — on first mutation
the base layer gains an entry holding the current backend value or its
absence, and an existing entry is kept; there is no checkpoint layer to
leave unchanged. -/
theorem depth0_mutation_records_in_base (s : CacheState) (k : String)
    (hWF : WF s) (h0 : s.checkpoints = 0) :
    ∃ L, s.diffCache = [L] ∧
      (∀ v, ∃ s', put s k v = some s' ∧
        s'.diffCache = [if (omGet L k).isSome then L else omSet L k (omGet s.cache k)]) ∧
      (∃ s', del s k = some s' ∧
        s'.diffCache = [if (omGet L k).isSome then L else omSet L k (omGet s.cache k)]) := by
  obtain ⟨-, hlen⟩ := hWF
  have hlen1 : s.diffCache.length = 1 := by
    rw [h0] at hlen
    simpa using hlen
  obtain ⟨L, hL⟩ := List.length_eq_one.mp hlen1
  have hTop : jsIndex s.diffCache s.checkpoints = some L := by
    rw [hL, h0]
    rfl
  have hsave := save_at_base s k L hTop hL h0
  have hput : ∀ v, put s k v = some { s with diffCache := [if (omGet L k).isSome then L else omSet L k (omGet s.cache k)], cache := omSet s.cache k ⟨v⟩, stats := { s.stats with writes := s.stats.writes + 1 } } := by
    intro v
    simp only [put, hsave]
  have hdel : del s k = some { s with diffCache := [if (omGet L k).isSome then L else omSet L k (omGet s.cache k)], cache := omSet s.cache k ⟨none⟩, stats := { s.stats with dels := s.stats.dels + 1 } } := by
    simp only [del, hsave]
  exact ⟨L, hL, fun v => ⟨_, hput v, rfl⟩, ⟨_, hdel, rfl⟩⟩

/-- Witness for the amended C8: at the initial state (depth 0), put and
del record the key's absence in the base layer. -/
theorem depth0_mutation_records_in_base_witness :
    ∃ L, initialState.diffCache = [L] ∧
      (∀ v, ∃ s', put initialState "aa" v = some s' ∧
        s'.diffCache = [if (omGet L "aa").isSome then L else omSet L "aa" (omGet initialState.cache "aa")]) ∧
      (∃ s', del initialState "aa" = some s' ∧
        s'.diffCache = [if (omGet L "aa").isSome then L else omSet L "aa" (omGet initialState.cache "aa")]) :=
  depth0_mutation_records_in_base initialState "aa" (by decide) (by decide)

/-- Claim C3 counterexample: at the initial state (checkpoint depth 0)
revert and commit both return successfully — neither fails with a
NoOpenCheckpoint error — and each leaves the depth counter at -1 with
the base diff layer popped. -/
theorem depth0_commit_revert_no_error :
    (revert initialState).map (fun s => (s.checkpoints, s.diffCache.length)) = some (-1, 0) ∧
    (commit initialState).map (fun s => (s.checkpoints, s.diffCache.length)) = some (-1, 0) := by decide

/-- Claim C3 amended: at depth 0, commit and revert perform no
NoOpenCheckpoint check at all: each pops the base diff layer and leaves
the depth at -1; revert applies the base layer's pre-images to the
backend, while commit silently succeeds when the base layer is empty and
crashes at runtime (after the pop) when it is not. -/
theorem depth0_commit_revert_behavior (s : CacheState)
    (hWF : WF s) (h0 : s.checkpoints = 0) :
    ∃ L, s.diffCache = [L] ∧
      revert s = some { s with checkpoints := -1, diffCache := [], cache := revertApply s.cache L } ∧
      (L = [] → commit s = some { s with checkpoints := -1, diffCache := [] }) ∧
      (L ≠ [] → commit s = none) := by
  obtain ⟨-, hlen⟩ := hWF
  have hlen1 : s.diffCache.length = 1 := by
    rw [h0] at hlen
    simpa using hlen
  obtain ⟨L, hL⟩ := List.length_eq_one.mp hlen1
  have hLast : s.diffCache.getLast? = some L := by
    rw [hL]
    rfl
  have hdrop : s.diffCache.dropLast = [] := by
    rw [hL]
    rfl
  refine ⟨L, hL, ?_, ?_, ?_⟩
  · simp only [revert, hLast, hdrop, h0]
    rfl
  · intro hLe
    subst hLe
    simp only [commit, hLast, hdrop, commitLoop, h0]
    rfl
  · intro hne
    obtain ⟨kv, rest, hcons⟩ := List.exists_cons_of_ne_nil hne
    subst hcons
    simp only [commit, hLast, hdrop, commitLoop, jsIndex_nil]

/-- Witness for the amended C3: a depth-0 state with one tracked key in
its non-empty base layer: revert succeeds and pops, commit crashes. -/
theorem depth0_commit_revert_behavior_witness :
    ∃ L, (⟨[("aa", ⟨some [1]⟩)], [[("aa", none)]], 0, ⟨0, 0, 1, 0⟩⟩ : CacheState).diffCache = [L] ∧
      revert ⟨[("aa", ⟨some [1]⟩)], [[("aa", none)]], 0, ⟨0, 0, 1, 0⟩⟩ = some { (⟨[("aa", ⟨some [1]⟩)], [[("aa", none)]], 0, ⟨0, 0, 1, 0⟩⟩ : CacheState) with checkpoints := -1, diffCache := [], cache := revertApply [("aa", ⟨some [1]⟩)] L } ∧
      (L = [] → commit ⟨[("aa", ⟨some [1]⟩)], [[("aa", none)]], 0, ⟨0, 0, 1, 0⟩⟩ = some { (⟨[("aa", ⟨some [1]⟩)], [[("aa", none)]], 0, ⟨0, 0, 1, 0⟩⟩ : CacheState) with checkpoints := -1, diffCache := [] }) ∧
      (L ≠ [] → commit ⟨[("aa", ⟨some [1]⟩)], [[("aa", none)]], 0, ⟨0, 0, 1, 0⟩⟩ = none) :=
  depth0_commit_revert_behavior ⟨[("aa", ⟨some [1]⟩)], [[("aa", none)]], 0, ⟨0, 0, 1, 0⟩⟩ (by decide) (by decide)

/-- Claim C2: evaluation at the failing input.  Starting from the initial
state, open a checkpoint, put key "aa" (absent before) with bytes [2],
open a second checkpoint, put "aa" with bytes [3], then commit the inner
checkpoint: the parent layer's entry recording "aa was absent" is
overwritten with the popped pre-image bytes [2] (second conjunct),
because getElementByKey returns undefined both for a missing entry and
for an entry recording absence; the subsequent revert of the outer
checkpoint therefore restores "aa" to bytes [2] instead of removing it
(first conjunct). -/
theorem commit_overwrites_absent_preimage :
    (run initialState [.checkpoint, .put "aa" (some [2]), .checkpoint, .put "aa" (some [3]), .commit, .revert]).map (fun s => omGet s.cache "aa") = some (some ⟨some [2]⟩) ∧
    (run initialState [.checkpoint, .put "aa" (some [2]), .checkpoint, .put "aa" (some [3]), .commit]).map (fun s => topLayer s) = some (some [("aa", some ⟨some [2]⟩)]) := by decide

theorem mem_of_omGet (m : List (String × α)) (k : String) (v : α)
    (h : omGet m k = some v) : (k, v) ∈ m := by
  induction m with
  | nil => simp [omGet] at h
  | cons hd rest ih =>
    obtain ⟨k₁, v₁⟩ := hd
    by_cases hk : k₁ = k
    · subst hk
      rw [show omGet ((k₁, v₁) :: rest) k₁ = some v₁ from by simp [omGet]] at h
      injection h with h
      exact List.mem_cons.mpr (Or.inl (by rw [h]))
    · rw [show omGet ((k₁, v₁) :: rest) k = omGet rest k from by simp [omGet, hk]] at h
      exact List.mem_cons.mpr (Or.inr (ih h))

theorem topLayer_isSome_of_WF (s : CacheState) (hWF : WF s) :
    ∃ L, topLayer s = some L := by
  obtain ⟨h0, hlen⟩ := hWF
  rw [topLayer, jsIndex, if_pos h0]
  cases hc : s.diffCache.get? s.checkpoints.toNat with
  | some L => exact ⟨L, rfl⟩
  | none =>
    exfalso
    rw [List.get?_eq_none] at hc
    omega

theorem save_records_key (s : CacheState) (k : String) (L : DiffLayer)
    (hL : topLayer s = some L) :
    ∃ s₁ L₁, _saveCachePreState s k = some s₁ ∧ topLayer s₁ = some L₁ ∧
      (omGet L₁ k).isSome ∧ s₁.cache = s.cache := by
  rw [topLayer] at hL
  by_cases hmem : (omGet L k).isSome
  · exact ⟨s, L, by simp only [_saveCachePreState, hL, if_pos hmem],
      by rw [topLayer]; exact hL, hmem, rfl⟩
  · refine ⟨{ s with diffCache := (jsSetIndex s.diffCache s.checkpoints (omSet L k (omGet s.cache k))) }, omSet L k (omGet s.cache k), ?_, ?_, ?_, rfl⟩
    · simp only [_saveCachePreState, hL, if_neg hmem]
    · show jsIndex (jsSetIndex s.diffCache s.checkpoints
        (omSet L k (omGet s.cache k))) s.checkpoints
          = some (omSet L k (omGet s.cache k))
      exact jsIndex_jsSetIndex_self s.diffCache s.checkpoints L _ hL
    · rw [omGet_omSet_self]
      rfl

/-- The key written by a mutation. -/
def opKey : CacheOp → String
  | .put k _ => k
  | .del k => k

theorem applyOp_tracks_key (s : CacheState) (op : CacheOp) (s₁ : CacheState)
    (L : DiffLayer) (hL : topLayer s = some L) (h : applyOp s op = some s₁) :
    ∃ L₁, topLayer s₁ = some L₁ ∧ (omGet L₁ (opKey op)).isSome ∧
      (omGet s₁.cache (opKey op)).isSome := by
  cases op with
  | put k v =>
    obtain ⟨sm, L₁, hsave, hTop, hkL, hcache⟩ := save_records_key s k L hL
    simp only [applyOp, put, hsave] at h
    injection h with h
    subst h
    refine ⟨L₁, hTop, hkL, ?_⟩
    show (omGet (omSet sm.cache k ⟨v⟩) k).isSome
    rw [omGet_omSet_self]
    rfl
  | del k =>
    obtain ⟨sm, L₁, hsave, hTop, hkL, hcache⟩ := save_records_key s k L hL
    simp only [applyOp, del, hsave] at h
    injection h with h
    subst h
    refine ⟨L₁, hTop, hkL, ?_⟩
    show (omGet (omSet sm.cache k ⟨none⟩) k).isSome
    rw [omGet_omSet_self]
    rfl

/-- Claim C5 counterexample: with two open checkpoints, flush reads the
layer at index `_checkpoints` — the innermost one — and not the layer of
the oldest open checkpoint: here key "aa" was mutated since the last
flush, is recorded in the oldest open checkpoint's layer (index 1) and
is present in the backend, yet flush returns no items. -/
theorem flush_ignores_oldest_checkpoint_layer :
    (run initialState [.put "aa" (some [0]), .checkpoint, .put "aa" (some [1]), .checkpoint]).map (fun s => (flush s).map Prod.fst) = some (some []) ∧
    (run initialState [.put "aa" (some [0]), .checkpoint, .put "aa" (some [1]), .checkpoint]).map (fun s => jsIndex s.diffCache 1) = some (some [("aa", some ⟨some [0]⟩)]) ∧
    (run initialState [.put "aa" (some [0]), .checkpoint, .put "aa" (some [1]), .checkpoint]).map (fun s => omGet s.cache "aa") = some (some ⟨some [1]⟩) := by decide

/-- Claim C5 amended: flush returns, as (key, value) pairs carrying the
backend value at flush time, exactly the keys recorded in the diff layer
at index equal to the current checkpoint count — the innermost open
checkpoint's layer, which is the base layer when no checkpoint is open —
and then replaces exactly that layer with an empty one, changing no
backend value, no statistics, no other diff layer, and not the
checkpoint depth. -/
theorem flush_spec (s : CacheState) (L : DiffLayer)
    (hL : topLayer s = some L) (hnd : NodupKeys L) :
    ∃ items s', flush s = some (items, s') ∧
      (∀ k v, (k, v) ∈ items ↔ (omGet L k).isSome ∧ omGet s.cache k = some v) ∧
      s'.cache = s.cache ∧ s'.checkpoints = s.checkpoints ∧ s'.stats = s.stats ∧
      topLayer s' = some [] ∧
      (∀ i, i ≠ s.checkpoints → jsIndex s'.diffCache i = jsIndex s.diffCache i) := by
  rw [topLayer] at hL
  refine ⟨L.filterMap (fun kv => match omGet s.cache kv.1 with | some elem => some (kv.1, elem) | none => none), { s with diffCache := (jsSetIndex s.diffCache s.checkpoints []) }, ?_, ?_, rfl, rfl, rfl, ?_, ?_⟩
  · simp only [flush, hL]
  · intro k v
    rw [List.mem_filterMap]
    constructor
    · rintro ⟨⟨k₁, pre⟩, hmem, hf⟩
      cases hc : omGet s.cache k₁ with
      | none =>
        rw [show omGet s.cache (k₁, pre).1 = none from hc] at hf
        exact absurd hf (by simp)
      | some e =>
        rw [show omGet s.cache (k₁, pre).1 = some e from hc] at hf
        injection hf with hf
        injection hf with hf1 hf2
        subst hf1
        subst hf2
        refine ⟨?_, hc⟩
        rw [(mem_iff_omGet L k₁ pre hnd).mp hmem]
        rfl
    · rintro ⟨hsome, hcache⟩
      obtain ⟨pre, hpre⟩ := Option.isSome_iff_exists.mp hsome
      refine ⟨(k, pre), (mem_iff_omGet L k pre hnd).mpr hpre, ?_⟩
      show (match omGet s.cache k with | some elem => some (k, elem) | none => none) = some (k, v)
      rw [hcache]
  · show jsIndex (jsSetIndex s.diffCache s.checkpoints []) s.checkpoints = some []
    exact jsIndex_jsSetIndex_self s.diffCache s.checkpoints L [] hL
  · intro i hi
    show jsIndex (jsSetIndex s.diffCache s.checkpoints []) i = jsIndex s.diffCache i
    exact jsIndex_jsSetIndex_ne s.diffCache s.checkpoints i [] (fun hh => hi hh.symm)

/-- Witness for the amended C5: a depth-0 state tracking key "aa" with
its backend entry present. -/
theorem flush_spec_witness :
    ∃ items s', flush ⟨[("aa", ⟨some [1]⟩)], [[("aa", none)]], 0, ⟨0, 0, 1, 0⟩⟩ = some (items, s') ∧
      (∀ k v, (k, v) ∈ items ↔ (omGet [("aa", (none : Option AccountCacheElement))] k).isSome ∧ omGet (⟨[("aa", ⟨some [1]⟩)], [[("aa", none)]], 0, ⟨0, 0, 1, 0⟩⟩ : CacheState).cache k = some v) ∧
      s'.cache = (⟨[("aa", ⟨some [1]⟩)], [[("aa", none)]], 0, ⟨0, 0, 1, 0⟩⟩ : CacheState).cache ∧ s'.checkpoints = (⟨[("aa", ⟨some [1]⟩)], [[("aa", none)]], 0, ⟨0, 0, 1, 0⟩⟩ : CacheState).checkpoints ∧ s'.stats = (⟨[("aa", ⟨some [1]⟩)], [[("aa", none)]], 0, ⟨0, 0, 1, 0⟩⟩ : CacheState).stats ∧
      topLayer s' = some [] ∧
      (∀ i, i ≠ (⟨[("aa", ⟨some [1]⟩)], [[("aa", none)]], 0, ⟨0, 0, 1, 0⟩⟩ : CacheState).checkpoints → jsIndex s'.diffCache i = jsIndex (⟨[("aa", ⟨some [1]⟩)], [[("aa", none)]], 0, ⟨0, 0, 1, 0⟩⟩ : CacheState).diffCache i) :=
  flush_spec ⟨[("aa", ⟨some [1]⟩)], [[("aa", none)]], 0, ⟨0, 0, 1, 0⟩⟩
    [("aa", none)] (by decide) (by decide)

/-- A flush immediately after a mutation returns a non-empty item
sequence (the mutated key is tracked in the innermost layer and present
in the backend), and a second flush immediately after the first returns
the empty sequence. -/
theorem flush_after_mutation (s s₁ : CacheState) (op : CacheOp)
    (hWF : WF s) (h1 : applyOp s op = some s₁) :
    ∃ items s₂, flush s₁ = some (items, s₂) ∧ items ≠ [] ∧
      (flush s₂).map Prod.fst = some [] := by
  obtain ⟨L, hL⟩ := topLayer_isSome_of_WF s hWF
  obtain ⟨L₁, hTop₁, hkL, hkC⟩ := applyOp_tracks_key s op s₁ L hL h1
  obtain ⟨pre, hpre⟩ := Option.isSome_iff_exists.mp hkL
  obtain ⟨elem, helem⟩ := Option.isSome_iff_exists.mp hkC
  rw [topLayer] at hTop₁
  refine ⟨L₁.filterMap (fun kv => match omGet s₁.cache kv.1 with | some elem => some (kv.1, elem) | none => none), { s₁ with diffCache := (jsSetIndex s₁.diffCache s₁.checkpoints []) }, ?_, ?_, ?_⟩
  · simp only [flush, hTop₁]
  · have hmem : (opKey op, elem) ∈ L₁.filterMap (fun kv => match omGet s₁.cache kv.1 with | some elem => some (kv.1, elem) | none => none) := by
      refine List.mem_filterMap.mpr ⟨(opKey op, pre), mem_of_omGet L₁ _ pre hpre, ?_⟩
      show (match omGet s₁.cache (opKey op) with | some elem => some (opKey op, elem) | none => none) = some (opKey op, elem)
      rw [helem]
    exact List.ne_nil_of_mem hmem
  · have hTop₂ : jsIndex (jsSetIndex s₁.diffCache s₁.checkpoints []) s₁.checkpoints = some [] :=
      jsIndex_jsSetIndex_self s₁.diffCache s₁.checkpoints L₁ [] hTop₁
    simp only [flush, hTop₂, List.filterMap_nil, Option.map_some']

/-- Claim C6 counterexample: a tracked mutation occurred since the last
flush — key "aa" is recorded in the base diff layer — but a checkpoint
was opened afterwards, so the first flush reads the empty innermost
layer and returns an empty sequence. -/
theorem flush_nonempty_fails_after_checkpoint :
    (run initialState [.put "aa" (some [0]), .checkpoint]).map (fun s => (flush s).map Prod.fst) = some (some []) ∧
    (run initialState [.put "aa" (some [0]), .checkpoint]).map (fun s => jsIndex s.diffCache 0) = some (some [("aa", none)]) := by decide

/-- Claim C6 amended: calling flush twice in a row with no mutation in
between yields an empty sequence from the second call, because the first
call resets the diff layer it reads; the first call returns a non-empty
sequence whenever a mutation is recorded in the innermost diff layer
with its key still present in the backend — in particular immediately
after any put or del. -/
theorem flush_idempotence (s : CacheState) (hWF : WF s) :
    (∀ items s₂, flush s = some (items, s₂) → (flush s₂).map Prod.fst = some []) ∧
    (∀ op s₁, applyOp s op = some s₁ → ∃ items s₂, flush s₁ = some (items, s₂) ∧ items ≠ [] ∧ (flush s₂).map Prod.fst = some []) := by
  constructor
  · intro items s₂ h
    obtain ⟨L, hL⟩ := topLayer_isSome_of_WF s hWF
    rw [topLayer] at hL
    simp only [flush, hL] at h
    injection h with h
    injection h with h1 h2
    subst h2
    have hTop₂ : jsIndex (jsSetIndex s.diffCache s.checkpoints []) s.checkpoints = some [] :=
      jsIndex_jsSetIndex_self s.diffCache s.checkpoints L [] hL
    simp only [flush, hTop₂, List.filterMap_nil, Option.map_some']
  · intro op s₁ h
    exact flush_after_mutation s s₁ op hWF h

/-- Witness for the amended C6 at a depth-0 state that has just recorded
a mutation of "aa". -/
theorem flush_idempotence_witness :
    (∀ items s₂, flush ⟨[("aa", ⟨some [2]⟩)], [[("aa", some ⟨some [1]⟩)]], 0, ⟨0, 0, 2, 0⟩⟩ = some (items, s₂) → (flush s₂).map Prod.fst = some []) ∧
    (∀ op s₁, applyOp ⟨[("aa", ⟨some [2]⟩)], [[("aa", some ⟨some [1]⟩)]], 0, ⟨0, 0, 2, 0⟩⟩ op = some s₁ → ∃ items s₂, flush s₁ = some (items, s₂) ∧ items ≠ [] ∧ (flush s₂).map Prod.fst = some []) :=
  flush_idempotence ⟨[("aa", ⟨some [2]⟩)], [[("aa", some ⟨some [1]⟩)]], 0, ⟨0, 0, 2, 0⟩⟩ (by decide)

/-- Claim C10: flush silently omits a tracked key whose backend entry is
absent at flush time — the key is recorded in the flushed layer yet
appears in no returned item — and still discards its tracking entry by
installing an empty replacement layer, so the lost change is not
reported by a later flush either. -/
theorem flush_omits_missing_backend (s : CacheState) (L : DiffLayer) (k : String)
    (pre : Option AccountCacheElement)
    (hL : topLayer s = some L) (hk : omGet L k = some pre)
    (hb : omGet s.cache k = none) :
    ∃ items s', flush s = some (items, s') ∧ (∀ v, (k, v) ∉ items) ∧
      topLayer s' = some [] := by
  rw [topLayer] at hL
  refine ⟨L.filterMap (fun kv => match omGet s.cache kv.1 with | some elem => some (kv.1, elem) | none => none), { s with diffCache := (jsSetIndex s.diffCache s.checkpoints []) }, ?_, ?_, ?_⟩
  · simp only [flush, hL]
  · intro v hv
    obtain ⟨⟨k₁, pre₁⟩, hmem, hf⟩ := List.mem_filterMap.mp hv
    cases hc : omGet s.cache k₁ with
    | none =>
      rw [show omGet s.cache (k₁, pre₁).1 = none from hc] at hf
      exact absurd hf (by simp)
    | some e =>
      rw [show omGet s.cache (k₁, pre₁).1 = some e from hc] at hf
      injection hf with hf
      injection hf with hf1 hf2
      subst hf1
      rw [hb] at hc
      exact absurd hc (by simp)
  · show jsIndex (jsSetIndex s.diffCache s.checkpoints []) s.checkpoints = some []
    exact jsIndex_jsSetIndex_self s.diffCache s.checkpoints L [] hL

/-- Witness for C1: key "aa" holds bytes [1]; a checkpoint, an overwrite
of "aa", a del of the absent key "bb", then a revert restore exactly the
original backend and stack. -/
theorem checkpoint_revert_roundtrip_witness :
    ∃ s₂ s₃, applyOps (checkpoint ⟨[("aa", ⟨some [1]⟩)], [[]], 0, ⟨0, 0, 1, 0⟩⟩) [CacheOp.put "aa" (some [2]), CacheOp.del "bb"] = some s₂ ∧ revert s₂ = some s₃ ∧ s₃.checkpoints = (⟨[("aa", ⟨some [1]⟩)], [[]], 0, ⟨0, 0, 1, 0⟩⟩ : CacheState).checkpoints ∧ s₃.diffCache = (⟨[("aa", ⟨some [1]⟩)], [[]], 0, ⟨0, 0, 1, 0⟩⟩ : CacheState).diffCache ∧ ∀ k, omGet s₃.cache k = omGet (⟨[("aa", ⟨some [1]⟩)], [[]], 0, ⟨0, 0, 1, 0⟩⟩ : CacheState).cache k :=
  checkpoint_revert_roundtrip ⟨[("aa", ⟨some [1]⟩)], [[]], 0, ⟨0, 0, 1, 0⟩⟩
    [CacheOp.put "aa" (some [2]), CacheOp.del "bb"] (by decide)

/-! The never-written invariant used for the negative-caching claim. -/

theorem keys_ne_of_omGet_none (m : List (String × α)) (k : String)
    (h : omGet m k = none) : ∀ kv ∈ m, kv.1 ≠ k := by
  induction m with
  | nil =>
    intro kv hkv
    simp at hkv
  | cons hd rest ih =>
    obtain ⟨k₁, v₁⟩ := hd
    by_cases hk : k₁ = k
    · rw [show omGet ((k₁, v₁) :: rest) k = some v₁ from by simp [omGet, hk]] at h
      exact absurd h (by simp)
    · rw [show omGet ((k₁, v₁) :: rest) k = omGet rest k from by simp [omGet, hk]] at h
      intro kv hkv
      rcases List.mem_cons.mp hkv with he | hm
      · subst he
        exact hk
      · exact ih h kv hm

theorem mem_of_getLast? (l : List α) (a : α) (h : l.getLast? = some a) :
    a ∈ l := by
  induction l with
  | nil => simp at h
  | cons x xs ih =>
    cases xs with
    | nil =>
      rw [List.getLast?_singleton] at h
      injection h with h
      exact List.mem_cons.mpr (Or.inl h.symm)
    | cons y ys =>
      rw [List.getLast?_cons_cons] at h
      exact List.mem_cons.mpr (Or.inr (ih h))

theorem mem_jsSetIndex (l : List α) (i : Int) (a b : α)
    (h : b ∈ jsSetIndex l i a) : b ∈ l ∨ b = a := by
  rw [jsSetIndex] at h
  by_cases h0 : 0 ≤ i
  · rw [if_pos h0] at h
    exact List.mem_or_eq_of_mem_set h
  · rw [if_neg h0] at h
    exact Or.inl h

theorem mem_of_jsIndex (l : List α) (i : Int) (a : α)
    (h : jsIndex l i = some a) : a ∈ l := by
  rw [jsIndex] at h
  by_cases h0 : 0 ≤ i
  · rw [if_pos h0] at h
    exact List.get?_mem h
  · rw [if_neg h0] at h
    exact absurd h (by simp)

/-- Does an engine operation write the given key. -/
def touches : EngineOp → String → Bool
  | .put k₁ _, k => k₁ == k
  | .del k₁, k => k₁ == k
  | _, _ => false

/-- The key has never been written: it is absent from the backend and
from every diff layer. -/
def Untouched (k : String) (s : CacheState) : Prop :=
  omGet s.cache k = none ∧ ∀ L ∈ s.diffCache, omGet L k = none

theorem save_untouched (s sm : CacheState) (k₁ k : String)
    (hne : k₁ ≠ k) (hu : Untouched k s)
    (h : _saveCachePreState s k₁ = some sm) : Untouched k sm := by
  obtain ⟨hc, hd⟩ := hu
  simp only [_saveCachePreState] at h
  cases hj : jsIndex s.diffCache s.checkpoints with
  | none =>
    rw [hj] at h
    exact absurd h (by simp)
  | some L =>
    simp only [hj] at h
    by_cases hmem : (omGet L k₁).isSome
    · rw [if_pos hmem] at h
      injection h with h
      subst h
      exact ⟨hc, hd⟩
    · rw [if_neg hmem] at h
      injection h with h
      subst h
      refine ⟨hc, ?_⟩
      intro L' hL'
      rcases mem_jsSetIndex _ _ _ _ hL' with hold | hnew
      · exact hd L' hold
      · subst hnew
        rw [omGet_omSet_ne L k₁ k _ hne]
        exact hd L (mem_of_jsIndex _ _ _ hj)

theorem commitLoop_untouched (k : String) (cps : Int)
    (entries : List (String × Option AccountCacheElement)) :
    ∀ (dc dc' : List DiffLayer),
      (∀ kv ∈ entries, kv.1 ≠ k) → (∀ L ∈ dc, omGet L k = none) →
      commitLoop cps dc entries = some dc' → ∀ L ∈ dc', omGet L k = none := by
  induction entries with
  | nil =>
    intro dc dc' hent hdc h
    simp only [commitLoop] at h
    injection h with h
    subst h
    exact hdc
  | cons kv rest ih =>
    intro dc dc' hent hdc h
    simp only [commitLoop] at h
    cases hp : jsIndex dc cps with
    | none =>
      rw [hp] at h
      exact absurd h (by simp)
    | some parent =>
      simp only [hp] at h
      by_cases hj : (omGet parent kv.1).join.isNone
      · rw [if_pos hj] at h
        refine ih _ _ (fun kv₁ h₁ => hent kv₁ (List.mem_cons.mpr (Or.inr h₁))) ?_ h
        intro L' hL'
        rcases mem_jsSetIndex _ _ _ _ hL' with hold | hnew
        · exact hdc L' hold
        · subst hnew
          rw [omGet_omSet_ne parent kv.1 k kv.2 (hent kv (List.mem_cons.mpr (Or.inl rfl)))]
          exact hdc parent (mem_of_jsIndex _ _ _ hp)
      · rw [if_neg hj] at h
        exact ih _ _ (fun kv₁ h₁ => hent kv₁ (List.mem_cons.mpr (Or.inr h₁))) hdc h

theorem runOp_untouched (s s₁ : CacheState) (op : EngineOp) (k : String)
    (ht : touches op k = false) (hu : Untouched k s)
    (h : runOp s op = some s₁) : Untouched k s₁ := by
  obtain ⟨hc, hd⟩ := hu
  cases op with
  | put k₁ v =>
    have hne : k₁ ≠ k := by simpa [touches] using ht
    simp only [runOp, put] at h
    cases hs : _saveCachePreState s k₁ with
    | none =>
      rw [hs] at h
      exact absurd h (by simp)
    | some sm =>
      rw [hs] at h
      injection h with h
      subst h
      obtain ⟨hc', hd'⟩ := save_untouched s sm k₁ k hne ⟨hc, hd⟩ hs
      refine ⟨?_, hd'⟩
      show omGet (omSet sm.cache k₁ ⟨v⟩) k = none
      rw [omGet_omSet_ne sm.cache k₁ k _ hne]
      exact hc'
  | del k₁ =>
    have hne : k₁ ≠ k := by simpa [touches] using ht
    simp only [runOp, del] at h
    cases hs : _saveCachePreState s k₁ with
    | none =>
      rw [hs] at h
      exact absurd h (by simp)
    | some sm =>
      rw [hs] at h
      injection h with h
      subst h
      obtain ⟨hc', hd'⟩ := save_untouched s sm k₁ k hne ⟨hc, hd⟩ hs
      refine ⟨?_, hd'⟩
      show omGet (omSet sm.cache k₁ ⟨none⟩) k = none
      rw [omGet_omSet_ne sm.cache k₁ k _ hne]
      exact hc'
  | get k₁ =>
    simp only [runOp] at h
    injection h with h
    subst h
    exact ⟨hc, hd⟩
  | checkpoint =>
    simp only [runOp, checkpoint] at h
    injection h with h
    subst h
    refine ⟨hc, ?_⟩
    intro L hL
    rcases List.mem_append.mp hL with hold | hnew
    · exact hd L hold
    · rw [List.mem_singleton] at hnew
      subst hnew
      rfl
  | commit =>
    simp only [runOp, commit] at h
    cases hlast : s.diffCache.getLast? with
    | none =>
      rw [hlast] at h
      exact absurd h (by simp)
    | some L =>
      simp only [hlast] at h
      cases hloop : commitLoop (s.checkpoints - 1) s.diffCache.dropLast L with
      | none =>
        simp only [hloop] at h
        exact absurd h (by simp)
      | some dc =>
        simp only [hloop] at h
        injection h with h
        subst h
        refine ⟨hc, ?_⟩
        have hLnone : omGet L k = none := hd L (mem_of_getLast? _ _ hlast)
        exact commitLoop_untouched k (s.checkpoints - 1) L s.diffCache.dropLast dc
          (keys_ne_of_omGet_none L k hLnone)
          (fun L' hL' => hd L' ((List.dropLast_sublist s.diffCache).subset hL'))
          hloop
  | revert =>
    simp only [runOp, revert] at h
    cases hlast : s.diffCache.getLast? with
    | none =>
      rw [hlast] at h
      exact absurd h (by simp)
    | some L =>
      simp only [hlast] at h
      injection h with h
      subst h
      have hLnone : omGet L k = none := hd L (mem_of_getLast? _ _ hlast)
      refine ⟨?_, ?_⟩
      · show omGet (revertApply s.cache L) k = none
        rw [revertApply_notmem L _ _ hLnone]
        exact hc
      · intro L' hL'
        exact hd L' ((List.dropLast_sublist s.diffCache).subset hL')
  | flush =>
    simp only [runOp, flush] at h
    cases hj : jsIndex s.diffCache s.checkpoints with
    | none =>
      rw [hj] at h
      exact absurd h (by simp)
    | some L =>
      simp only [hj, Option.map_some'] at h
      injection h with h
      subst h
      refine ⟨hc, ?_⟩
      intro L' hL'
      rcases mem_jsSetIndex _ _ _ _ hL' with hold | hnew
      · exact hd L' hold
      · subst hnew
        rfl

theorem run_untouched (k : String) (ops : List EngineOp) :
    ∀ s s', (∀ op ∈ ops, touches op k = false) → Untouched k s →
      run s ops = some s' → Untouched k s' := by
  induction ops with
  | nil =>
    intro s s' _ hu h
    simp only [run] at h
    injection h with h
    subst h
    exact hu
  | cons op ops ih =>
    intro s s' hops hu h
    simp only [run] at h
    cases hop : runOp s op with
    | none =>
      rw [hop] at h
      exact absurd h (by simp)
    | some s₁ =>
      rw [hop] at h
      exact ih s₁ s' (fun o ho => hops o (List.mem_cons.mpr (Or.inr ho)))
        (runOp_untouched s s₁ op k (hops op (List.mem_cons.mpr (Or.inl rfl))) hu hop) h

/-- Claim C7: negative caching is distinguishable from not-cached.  A put
of None (or a del) followed by get on the key yields Some element whose
encoded payload is None — a cached "known to not exist" — whereas get on
a key no put or del of any prior operation sequence from the initial
state ever wrote yields None; the two outcomes are distinct. -/
theorem negative_caching_distinct :
    (∀ s s₁ k, put s k none = some s₁ → (get s₁ k).1 = some ⟨none⟩) ∧
    (∀ s s₁ k, del s k = some s₁ → (get s₁ k).1 = some ⟨none⟩) ∧
    (∀ ops s k, (∀ op ∈ ops, touches op k = false) →
      run initialState ops = some s → (get s k).1 = none) := by
  refine ⟨?_, ?_, ?_⟩
  · intro s s₁ k h
    simp only [put] at h
    cases hs : _saveCachePreState s k with
    | none =>
      rw [hs] at h
      exact absurd h (by simp)
    | some sm =>
      rw [hs] at h
      injection h with h
      subst h
      show omGet (omSet sm.cache k ⟨none⟩) k = some ⟨none⟩
      exact omGet_omSet_self sm.cache k ⟨none⟩
  · intro s s₁ k h
    simp only [del] at h
    cases hs : _saveCachePreState s k with
    | none =>
      rw [hs] at h
      exact absurd h (by simp)
    | some sm =>
      rw [hs] at h
      injection h with h
      subst h
      show omGet (omSet sm.cache k ⟨none⟩) k = some ⟨none⟩
      exact omGet_omSet_self sm.cache k ⟨none⟩
  · intro ops s k hops hrun
    have hinit : Untouched k initialState := by
      refine ⟨rfl, ?_⟩
      intro L hL
      rw [show initialState.diffCache = [[]] from rfl, List.mem_singleton] at hL
      subst hL
      rfl
    exact (run_untouched k ops initialState s hops hinit hrun).1

/-- Witness for C7: put of None on "aa" makes get return the explicit
negative element, while get on the never-written "bb" returns none. -/
theorem negative_caching_distinct_witness :
    (get ⟨[("aa", ⟨none⟩)], [[("aa", none)]], 0, ⟨0, 0, 1, 0⟩⟩ "aa").1 = some ⟨none⟩ ∧
    (get ⟨[("aa", ⟨some [1]⟩)], [[("aa", none)]], 0, ⟨0, 0, 1, 0⟩⟩ "bb").1 = none :=
  ⟨negative_caching_distinct.1 initialState ⟨[("aa", ⟨none⟩)], [[("aa", none)]], 0, ⟨0, 0, 1, 0⟩⟩ "aa" (by decide),
   negative_caching_distinct.2.2 [EngineOp.put "aa" (some [1])] ⟨[("aa", ⟨some [1]⟩)], [[("aa", none)]], 0, ⟨0, 0, 1, 0⟩⟩ "bb" (by decide) (by decide)⟩

theorem save_cache_eq (s sm : CacheState) (k : String)
    (h : _saveCachePreState s k = some sm) :
    sm.cache = s.cache ∧ sm.stats = s.stats ∧ sm.checkpoints = s.checkpoints := by
  simp only [_saveCachePreState] at h
  cases hj : jsIndex s.diffCache s.checkpoints with
  | none =>
    rw [hj] at h
    exact absurd h (by simp)
  | some L =>
    simp only [hj] at h
    by_cases hmem : (omGet L k).isSome
    · rw [if_pos hmem] at h
      injection h with h
      subst h
      exact ⟨rfl, rfl, rfl⟩
    · rw [if_neg hmem] at h
      injection h with h
      subst h
      exact ⟨rfl, rfl, rfl⟩

theorem omSet_preserves_isSome (m : List (String × α)) (k k₁ : String) (v : α)
    (h : (omGet m k).isSome) : (omGet (omSet m k₁ v) k).isSome := by
  by_cases hk : k₁ = k
  · subst hk
    rw [omGet_omSet_self]
    rfl
  · rw [omGet_omSet_ne m k₁ k v hk]
    exact h

/-- Claim C9: revert is the only engine operation that ever removes a key
from the backend — put stores an element for the key, del keeps the key
present by storing an explicit element with an absent payload, and get,
checkpoint, commit and flush never delete backend entries; consequently,
after del the key is found by get and counted as a hit. -/
theorem revert_only_removal :
    (∀ s s₁ op k, op ≠ EngineOp.revert → runOp s op = some s₁ →
      (omGet s.cache k).isSome → (omGet s₁.cache k).isSome) ∧
    (∀ s s₁ k, del s k = some s₁ → (get s₁ k).1 = some ⟨none⟩ ∧
      (get s₁ k).2.stats.hits = s₁.stats.hits + 1) := by
  constructor
  · intro s s₁ op k hop h hk
    cases op with
    | put k₁ v =>
      simp only [runOp, put] at h
      cases hs : _saveCachePreState s k₁ with
      | none =>
        rw [hs] at h
        exact absurd h (by simp)
      | some sm =>
        rw [hs] at h
        injection h with h
        subst h
        show (omGet (omSet sm.cache k₁ ⟨v⟩) k).isSome
        refine omSet_preserves_isSome sm.cache k k₁ ⟨v⟩ ?_
        rw [(save_cache_eq s sm k₁ hs).1]
        exact hk
    | del k₁ =>
      simp only [runOp, del] at h
      cases hs : _saveCachePreState s k₁ with
      | none =>
        rw [hs] at h
        exact absurd h (by simp)
      | some sm =>
        rw [hs] at h
        injection h with h
        subst h
        show (omGet (omSet sm.cache k₁ ⟨none⟩) k).isSome
        refine omSet_preserves_isSome sm.cache k k₁ ⟨none⟩ ?_
        rw [(save_cache_eq s sm k₁ hs).1]
        exact hk
    | get k₁ =>
      simp only [runOp] at h
      injection h with h
      subst h
      exact hk
    | checkpoint =>
      simp only [runOp, checkpoint] at h
      injection h with h
      subst h
      exact hk
    | commit =>
      simp only [runOp, commit] at h
      cases hlast : s.diffCache.getLast? with
      | none =>
        rw [hlast] at h
        exact absurd h (by simp)
      | some L =>
        simp only [hlast] at h
        cases hloop : commitLoop (s.checkpoints - 1) s.diffCache.dropLast L with
        | none =>
          simp only [hloop] at h
          exact absurd h (by simp)
        | some dc =>
          simp only [hloop] at h
          injection h with h
          subst h
          exact hk
    | revert => exact absurd rfl hop
    | flush =>
      simp only [runOp, flush] at h
      cases hj : jsIndex s.diffCache s.checkpoints with
      | none =>
        rw [hj] at h
        exact absurd h (by simp)
      | some L =>
        simp only [hj, Option.map_some'] at h
        injection h with h
        subst h
        exact hk
  · intro s s₁ k h
    simp only [del] at h
    cases hs : _saveCachePreState s k with
    | none =>
      rw [hs] at h
      exact absurd h (by simp)
    | some sm =>
      rw [hs] at h
      injection h with h
      subst h
      refine ⟨?_, ?_⟩ <;> simp [get, omGet_omSet_self]

/-- Witness for C9: a put on "aa" keeps "aa" present, and a del of "aa"
leaves an entry that get finds and counts as a hit. -/
theorem revert_only_removal_witness :
    (omGet (⟨[("aa", ⟨some [2]⟩)], [[("aa", some ⟨some [1]⟩)]], 0, ⟨0, 0, 2, 0⟩⟩ : CacheState).cache "aa").isSome ∧
    ((get ⟨[("aa", ⟨none⟩)], [[("aa", some ⟨some [1]⟩)]], 0, ⟨0, 0, 1, 1⟩⟩ "aa").1 = some ⟨none⟩ ∧
     (get ⟨[("aa", ⟨none⟩)], [[("aa", some ⟨some [1]⟩)]], 0, ⟨0, 0, 1, 1⟩⟩ "aa").2.stats.hits = (⟨[("aa", ⟨none⟩)], [[("aa", some ⟨some [1]⟩)]], 0, ⟨0, 0, 1, 1⟩⟩ : CacheState).stats.hits + 1) :=
  ⟨revert_only_removal.1 ⟨[("aa", ⟨some [1]⟩)], [[]], 0, ⟨0, 0, 1, 0⟩⟩ ⟨[("aa", ⟨some [2]⟩)], [[("aa", some ⟨some [1]⟩)]], 0, ⟨0, 0, 2, 0⟩⟩ (EngineOp.put "aa" (some [2])) "aa" (by decide) (by decide) (by decide),
   revert_only_removal.2 ⟨[("aa", ⟨some [1]⟩)], [[]], 0, ⟨0, 0, 1, 0⟩⟩ ⟨[("aa", ⟨none⟩)], [[("aa", some ⟨some [1]⟩)]], 0, ⟨0, 0, 1, 1⟩⟩ "aa" (by decide)⟩

/-- Witness for C10: a depth-0 state tracking key "aa" whose backend
entry is absent. -/
theorem flush_omits_missing_backend_witness :
    ∃ items s', flush ⟨[], [[("aa", none)]], 0, ⟨0, 0, 1, 0⟩⟩ = some (items, s') ∧
      (∀ v, ("aa", v) ∉ items) ∧ topLayer s' = some [] :=
  flush_omits_missing_backend ⟨[], [[("aa", none)]], 0, ⟨0, 0, 1, 0⟩⟩
    [("aa", none)] "aa" none (by decide) (by decide) (by decide)

end AccountCache
